import Mathlib

/-!
Verification of the raw-transaction construction, signing and submission
engine of the smileyCoin node (`src/rpcrawtransaction.cpp`), together with
its token-commitment protocol. The C++ functions are embedded shallowly:
pure helpers become Lean functions, the per-input signing loop becomes a
recursion over the list of input indices, JSON-RPC failures become values
of explicit error types in `Except`, and the external collaborators
(coin view, key store, script interpreter, hashing) are abstracted into
explicit function parameters, exactly where the C++ calls out of this file.
-/

set_option maxRecDepth 4000

/-- One element of a script byte program, as assembled by
`CScript() << opcode << data`: either a single opcode or a pushed data
payload.  The byte-level push encoding lives in `script.h`, outside the
sources under study, so scripts are modelled at this element level. -/
inductive ScriptElem where
  | op (code : Nat)
  | push (data : List Nat)
deriving DecidableEq, Repr

/-- A script is the ordered list of its elements. -/
abbrev Script := List ScriptElem

/-- Opcode `OP_RETURN`, the null-data opcode. -/
def OP_RETURN : Nat := 0x6a

/-- Structure `COutPoint`: a (previous transaction id, output index) reference.
The 256-bit hash is modelled as a natural number. -/
structure COutPoint where
  hash : Nat
  n : Nat
deriving DecidableEq, Repr

/-- Structure `CTxIn`: an input referencing a previous output, carrying an unlocking
script and a sequence number. -/
structure CTxIn where
  prevout : COutPoint
  scriptSig : Script
  nSequence : Nat
deriving DecidableEq, Repr

/-- Structure `CTxOut`: an amount (signed 64-bit in the C++, modelled as `Int`) and a
locking script. -/
structure CTxOut where
  nValue : Int
  scriptPubKey : Script
deriving DecidableEq, Repr

/-- Structure `CMutableTransaction` / `CTransaction`: version, inputs, outputs,
lock time. -/
structure CMutableTransaction where
  nVersion : Int := 1
  vin : List CTxIn := []
  vout : List CTxOut := []
  nLockTime : Nat := 0
deriving DecidableEq, Repr

/-- Structure `CCoins` as seen through the coin views: the (possibly spent, hence
`Option`) outputs of one transaction, plus the height it was confirmed at.
`IsAvailable n` in the C++ is `n < vout.size() && !vout[n].IsNull()`,
i.e. the entry at `n` exists and is `some`. -/
structure CCoins where
  vout : List (Option CTxOut)
  nHeight : Int
deriving DecidableEq, Repr

/-- Constant `COIN`, the base-unit multiplier of the ledger (from `core.h`,
the standard 10^8 fixed-point unit). -/
def COIN : Int := 100000000

/-- Replace the element at position `i` (no-op when out of range). -/
def modifyNth (f : α → α) : Nat → List α → List α
  | 0, [] => []
  | 0, a :: as => f a :: as
  | _ + 1, [] => []
  | n + 1, a :: as => a :: modifyNth f n as

theorem modifyNth_length (f : α → α) (n : Nat) (l : List α) :
    (modifyNth f n l).length = l.length := by
  induction l generalizing n with
  | nil => cases n <;> rfl
  | cons a as ih =>
    cases n with
    | zero => rfl
    | succ m => simp [modifyNth, ih]

theorem get?_modifyNth_ne (f : α → α) {i j : Nat} (h : j ≠ i) (l : List α) :
    (modifyNth f i l)[j]? = l[j]? := by
  induction l generalizing i j with
  | nil => cases i <;> rfl
  | cons a as ih =>
    cases i with
    | zero =>
      cases j with
      | zero => exact absurd rfl h
      | succ m => simp [modifyNth]
    | succ m =>
      cases j with
      | zero => simp [modifyNth]
      | succ k =>
        simp only [modifyNth, List.getElem?_cons_succ]
        exact ih (fun hk => h (by simp [hk]))

theorem get?_modifyNth_self (f : α → α) (i : Nat) (l : List α) :
    (modifyNth f i l)[i]? = (l[i]?).map f := by
  induction l generalizing i with
  | nil => cases i <;> rfl
  | cons a as ih =>
    cases i with
    | zero => simp [modifyNth]
    | succ m => simpa [modifyNth] using ih m

/-- Assignment `txin.scriptSig = s` for input `i` of a transaction (the only mutation
the signing loop performs on the merge target). -/
def setVinScript (tx : CMutableTransaction) (i : Nat) (s : Script) :
    CMutableTransaction :=
  { tx with vin := modifyNth (fun t => { t with scriptSig := s }) i tx.vin }

theorem setVinScript_vout (tx : CMutableTransaction) (i : Nat) (s : Script) :
    (setVinScript tx i s).vout = tx.vout := rfl

theorem setVinScript_vin_length (tx : CMutableTransaction) (i : Nat) (s : Script) :
    (setVinScript tx i s).vin.length = tx.vin.length :=
  modifyNth_length _ _ _

theorem setVinScript_get?_ne (tx : CMutableTransaction) {i j : Nat} (h : j ≠ i)
    (s : Script) : (setVinScript tx i s).vin[j]? = tx.vin[j]? :=
  get?_modifyNth_ne _ h _

theorem setVinScript_get?_self (tx : CMutableTransaction) (i : Nat) (s : Script) :
    (setVinScript tx i s).vin[i]? =
      (tx.vin[i]?).map (fun t => { t with scriptSig := s }) :=
  get?_modifyNth_self _ _ _

theorem setVinScript_prevout (tx : CMutableTransaction) (i j : Nat) (s : Script) :
    ((setVinScript tx i s).vin[j]?).map CTxIn.prevout =
      (tx.vin[j]?).map CTxIn.prevout := by
  by_cases h : j = i
  · subst h
    rw [setVinScript_get?_self]
    cases tx.vin[j]? <;> rfl
  · rw [setVinScript_get?_ne tx h]

theorem setVinScript_setVinScript (tx : CMutableTransaction) (i : Nat)
    (a b : Script) :
    setVinScript (setVinScript tx i a) i b = setVinScript tx i b := by
  unfold setVinScript
  simp only
  congr 1
  induction tx.vin generalizing i with
  | nil => cases i <;> rfl
  | cons t ts ih =>
    cases i with
    | zero => rfl
    | succ m => simp [modifyNth, ih]

/-! ### Signing Engine (`signrawtransaction`, lines 542-770, and
`signrawtokentransaction`, lines 867-955)

The external collaborators of the per-input loop — the warmed coin view,
`SignSignature`, `CombineSignatures` and `VerifyScript` — are gathered in a
context record; everything else is translated from the loop body. -/

/-- Signature-hash selector constants (`script.h`). -/
def SIGHASH_ALL : Nat := 1

/-- Constant `SIGHASH_NONE`. -/
def SIGHASH_NONE : Nat := 2

/-- Constant `SIGHASH_SINGLE`. -/
def SIGHASH_SINGLE : Nat := 3

/-- Constant `SIGHASH_ANYONECANPAY`. -/
def SIGHASH_ANYONECANPAY : Nat := 0x80

/-- Flag `bool fHashSingle = ((nHashType & ~SIGHASH_ANYONECANPAY) == SIGHASH_SINGLE)`
with 32-bit `int` arithmetic: `~0x80 = 0xFFFFFF7F`. -/
def fHashSingle (nHashType : Nat) : Bool :=
  decide (Nat.land nHashType 0xFFFFFF7F = SIGHASH_SINGLE)

/-- The external collaborators used by the signing loop, abstracted:
`view` is the warmed `CCoinsViewCache` as a lookup by txid; `sign` is
`SignSignature(keystore, prevPubKey, tx, i, nHashType)` returning the script
it installs at input `i`; `combine` is `CombineSignatures`; `verify` is
`VerifyScript(scriptSig, prevPubKey, tx, i, P2SH | STRICTENC, 0)`. -/
structure SignCtx where
  view : Nat → Option CCoins
  sign : Script → CMutableTransaction → Nat → Nat → Script
  combine : Script → CMutableTransaction → Nat → Script → Script → Script
  verify : Script → Script → CMutableTransaction → Nat → Bool

/-- Lookup `view.GetCoins(txin.prevout.hash, coins) && coins.IsAvailable(txin.prevout.n)`
followed by `coins.vout[txin.prevout.n]`. -/
def resolveCoin (view : Nat → Option CCoins) (p : COutPoint) : Option CTxOut :=
  match view p.hash with
  | none => none
  | some coins =>
    match coins.vout[p.n]? with
    | some (some out) => some out
    | _ => none

/-- The unlocking script of input `i` (always called in bounds). -/
def scriptSigAt (tx : CMutableTransaction) (i : Nat) : Script :=
  match tx.vin[i]? with
  | some txin => txin.scriptSig
  | none => []

/-- Errors a signing call can raise (`JSONRPCError` sites plus, in the total
embedding, the unchecked `txv.vin[i]` vector access of the merge step). -/
inductive SignErr where
  | txDecodeFailed
  | missingTransaction
  | vinOutOfRange
deriving DecidableEq, Repr

/-- The `BOOST_FOREACH(const CMutableTransaction& txv, txVariants)` merge
step for input `i`:
`txin.scriptSig = CombineSignatures(prevPubKey, mergedTx, i, txin.scriptSig, txv.vin[i].scriptSig)`.
The access `txv.vin[i]` carries no bounds check in the source; a variant
with fewer inputs than the merge target makes it out of range, which the
total embedding reports as `SignErr.vinOutOfRange`. -/
def mergeLoop (ctx : SignCtx) (prevPubKey : Script) (i : Nat) :
    List CMutableTransaction → CMutableTransaction →
    Except SignErr CMutableTransaction
  | [], acc => .ok acc
  | txv :: rest, acc =>
    match txv.vin[i]? with
    | none => .error SignErr.vinOutOfRange
    | some vi =>
      mergeLoop ctx prevPubKey i rest
        (setVinScript acc i
          (ctx.combine prevPubKey acc i (scriptSigAt acc i) vi.scriptSig))

/-- The body of `for (unsigned int i = 0; i < mergedTx.vin.size(); i++)`
for one index `i`, acting on the state (merge target, `fComplete`). -/
def signStep (ctx : SignCtx) (nHashType : Nat)
    (txVariants : List CMutableTransaction)
    (st : CMutableTransaction × Bool) (i : Nat) :
    Except SignErr (CMutableTransaction × Bool) :=
  match st.1.vin[i]? with
  | none => .ok st
  | some txin =>
    match resolveCoin ctx.view txin.prevout with
    | none => .ok (st.1, false)
    | some prevOut =>
      let prevPubKey := prevOut.scriptPubKey
      let tx1 := setVinScript st.1 i []
      let tx2 :=
        if !(fHashSingle nHashType) || decide (i < tx1.vout.length) then
          setVinScript tx1 i (ctx.sign prevPubKey tx1 i nHashType)
        else tx1
      (mergeLoop ctx prevPubKey i txVariants tx2).map
        (fun merged =>
          (merged, st.2 && ctx.verify (scriptSigAt merged i) prevPubKey merged i))

/-- The signing loop over a list of input indices. -/
def signLoopAux (ctx : SignCtx) (nHashType : Nat)
    (txVariants : List CMutableTransaction) :
    List Nat → CMutableTransaction × Bool →
    Except SignErr (CMutableTransaction × Bool)
  | [], st => .ok st
  | i :: is, st =>
    match signStep ctx nHashType txVariants st i with
    | .error e => .error e
    | .ok st1 => signLoopAux ctx nHashType txVariants is st1

/-- RPC `signrawtransaction` after decoding: the first variant is cloned into
`mergedTx`, `fComplete` starts `true`, and every input index is processed in
order; the result is the merged transaction and the completeness flag.
An empty variant list is the `"Missing transaction"` error. -/
def signrawtransactionCore (ctx : SignCtx) (nHashType : Nat)
    (txVariants : List CMutableTransaction) :
    Except SignErr (CMutableTransaction × Bool) :=
  match txVariants with
  | [] => .error SignErr.missingTransaction
  | t0 :: _ =>
    signLoopAux ctx nHashType txVariants (List.range t0.vin.length) (t0, true)

/-- Helper `signrawtokentransaction`: the same loop with `nHashType = SIGHASH_ALL`
fixed and no caller-supplied keys or prevout hints; it returns only the
encoded transaction, dropping the completeness flag. -/
def signrawtokentransactionCore (ctx : SignCtx)
    (txVariants : List CMutableTransaction) :
    Except SignErr CMutableTransaction :=
  (signrawtransactionCore ctx SIGHASH_ALL txVariants).map Prod.fst

/-! ### Invariants of the signing loop -/

/-- Processing input `i` changes at most the unlocking script of input `i`:
input count, outputs, every prevout and every other input are untouched. -/
def TouchOnly (i : Nat) (a b : CMutableTransaction) : Prop :=
  a.vin.length = b.vin.length ∧ a.vout = b.vout ∧
  (∀ j : Nat, (a.vin[j]?).map CTxIn.prevout = (b.vin[j]?).map CTxIn.prevout) ∧
  (∀ j : Nat, j ≠ i → a.vin[j]? = b.vin[j]?)

theorem touchOnly_rfl (i : Nat) (a : CMutableTransaction) : TouchOnly i a a :=
  ⟨rfl, rfl, fun _ => rfl, fun _ _ => rfl⟩

theorem touchOnly_trans {i : Nat} {a b c : CMutableTransaction}
    (h1 : TouchOnly i a b) (h2 : TouchOnly i b c) : TouchOnly i a c :=
  ⟨h1.1.trans h2.1, h1.2.1.trans h2.2.1,
   fun j => (h1.2.2.1 j).trans (h2.2.2.1 j),
   fun j hj => (h1.2.2.2 j hj).trans (h2.2.2.2 j hj)⟩

theorem touchOnly_setVinScript (tx : CMutableTransaction) (i : Nat) (s : Script) :
    TouchOnly i (setVinScript tx i s) tx :=
  ⟨setVinScript_vin_length tx i s, setVinScript_vout tx i s,
   fun j => setVinScript_prevout tx i j s,
   fun _ hj => setVinScript_get?_ne tx hj s⟩

/-- A run over the index list `is` touches no input outside `is` and
preserves the transaction's shape. -/
def UntouchedOutside (is : List Nat) (a b : CMutableTransaction) : Prop :=
  a.vin.length = b.vin.length ∧ a.vout = b.vout ∧
  (∀ j : Nat, (a.vin[j]?).map CTxIn.prevout = (b.vin[j]?).map CTxIn.prevout) ∧
  (∀ j : Nat, j ∉ is → a.vin[j]? = b.vin[j]?)

theorem untouchedOutside_rfl (is : List Nat) (a : CMutableTransaction) :
    UntouchedOutside is a a :=
  ⟨rfl, rfl, fun _ => rfl, fun _ _ => rfl⟩

theorem untouchedOutside_cons {i : Nat} {is : List Nat}
    {a b c : CMutableTransaction}
    (h1 : TouchOnly i b c) (h2 : UntouchedOutside is a b) :
    UntouchedOutside (i :: is) a c :=
  ⟨h2.1.trans h1.1, h2.2.1.trans h1.2.1,
   fun j => (h2.2.2.1 j).trans (h1.2.2.1 j),
   fun j hj =>
     (h2.2.2.2 j (fun hm => hj (List.mem_cons_of_mem _ hm))).trans
       (h1.2.2.2 j (fun he => hj (he ▸ List.mem_cons_self _ _)))⟩

theorem except_map_ok {ε α β : Type} {e : Except ε α} {f : α → β} {b : β}
    (h : e.map f = .ok b) : ∃ a, e = .ok a ∧ f a = b := by
  cases e with
  | error err => exact absurd h (by simp [Except.map])
  | ok a =>
    refine ⟨a, rfl, ?_⟩
    simpa [Except.map] using h

/-- The merge step never fails and touches only input `i` when every
variant has an input at index `i`. -/
theorem mergeLoop_ok (ctx : SignCtx) (p : Script) (i : Nat) :
    ∀ (vs : List CMutableTransaction) (acc : CMutableTransaction),
      (∀ txv ∈ vs, i < txv.vin.length) →
      ∃ m, mergeLoop ctx p i vs acc = .ok m ∧ TouchOnly i m acc
  | [], acc, _ => ⟨acc, rfl, touchOnly_rfl i acc⟩
  | txv :: rest, acc, h => by
    have hi : i < txv.vin.length := h txv (List.mem_cons_self _ _)
    have hsome : txv.vin[i]? ≠ none := by
      simp only [ne_eq, List.getElem?_eq_none_iff]
      omega
    obtain ⟨vi, hvi⟩ := Option.ne_none_iff_exists'.mp hsome
    obtain ⟨m, hm, ht⟩ := mergeLoop_ok ctx p i rest
      (setVinScript acc i (ctx.combine p acc i (scriptSigAt acc i) vi.scriptSig))
      (fun t ht' => h t (List.mem_cons_of_mem _ ht'))
    refine ⟨m, ?_, touchOnly_trans ht (touchOnly_setVinScript acc i _)⟩
    simp [mergeLoop, hvi, hm]

/-- A step at an in-range index succeeds (under the variant-length
precondition) and touches only input `i`. -/
theorem signStep_ok (ctx : SignCtx) (nHashType : Nat)
    (vs : List CMutableTransaction) (st : CMutableTransaction × Bool) (i : Nat)
    (hv : ∀ txv ∈ vs, st.1.vin.length ≤ txv.vin.length)
    (hi : i < st.1.vin.length) :
    ∃ st', signStep ctx nHashType vs st i = .ok st' ∧ TouchOnly i st'.1 st.1 := by
  have hsome : st.1.vin[i]? ≠ none := by
    simp only [ne_eq, List.getElem?_eq_none_iff]
    omega
  obtain ⟨txin, hget⟩ := Option.ne_none_iff_exists'.mp hsome
  cases hres : resolveCoin ctx.view txin.prevout with
  | none =>
    exact ⟨(st.1, false), by simp [signStep, hget, hres], touchOnly_rfl i st.1⟩
  | some prevOut =>
    obtain ⟨m, hm, htm⟩ := mergeLoop_ok ctx prevOut.scriptPubKey i vs
      (if !(fHashSingle nHashType) ||
          decide (i < (setVinScript st.1 i []).vout.length) then
        setVinScript (setVinScript st.1 i []) i
          (ctx.sign prevOut.scriptPubKey (setVinScript st.1 i []) i nHashType)
      else setVinScript st.1 i [])
      (fun t ht => Nat.lt_of_lt_of_le hi (hv t ht))
    refine ⟨(m, st.2 && ctx.verify (scriptSigAt m i) prevOut.scriptPubKey m i),
      ?_, ?_⟩
    · simp only [signStep, hget, hres]
      rw [hm]
      rfl
    · refine touchOnly_trans htm ?_
      split
      · rw [setVinScript_setVinScript]
        exact touchOnly_setVinScript _ _ _
      · exact touchOnly_setVinScript _ _ _

/-- Flag `fComplete` never recovers: a step on a `false` state that succeeds
yields a `false` state. -/
theorem signStep_snd_false (ctx : SignCtx) (nHashType : Nat)
    (vs : List CMutableTransaction) (st : CMutableTransaction × Bool) (i : Nat)
    (st' : CMutableTransaction × Bool) (hsnd : st.2 = false)
    (h : signStep ctx nHashType vs st i = .ok st') : st'.2 = false := by
  simp only [signStep] at h
  split at h
  · cases h
    exact hsnd
  · split at h
    · cases h
      rfl
    · obtain ⟨m, _, hfm⟩ := except_map_ok h
      rw [← hfm]
      simp [hsnd]

/-- An unresolvable previous output makes the step skip the input entirely,
leaving the transaction untouched and forcing `fComplete = false`. -/
theorem signStep_unresolved (ctx : SignCtx) (nHashType : Nat)
    (vs : List CMutableTransaction) (st : CMutableTransaction × Bool) (i : Nat)
    (txin : CTxIn) (hget : st.1.vin[i]? = some txin)
    (hres : resolveCoin ctx.view txin.prevout = none) :
    signStep ctx nHashType vs st i = .ok (st.1, false) := by
  simp [signStep, hget, hres]

/-- When `VerifyScript` rejects everything, a successful in-range step
always ends with `fComplete = false`. -/
theorem signStep_snd_false_of_verify (ctx : SignCtx) (nHashType : Nat)
    (vs : List CMutableTransaction) (st : CMutableTransaction × Bool) (i : Nat)
    (hver : ∀ a b t j, ctx.verify a b t j = false)
    (hi : i < st.1.vin.length) (st' : CMutableTransaction × Bool)
    (h : signStep ctx nHashType vs st i = .ok st') : st'.2 = false := by
  have hsome : st.1.vin[i]? ≠ none := by
    simp only [ne_eq, List.getElem?_eq_none_iff]
    omega
  obtain ⟨txin, hget⟩ := Option.ne_none_iff_exists'.mp hsome
  simp only [signStep, hget] at h
  split at h
  · cases h
    rfl
  · obtain ⟨m, _, hfm⟩ := except_map_ok h
    rw [← hfm]
    simp [hver]

/-- A run over in-range indices succeeds (under the variant-length
precondition), preserves the transaction's shape and touches no input
outside the processed index list. -/
theorem signLoopAux_ok (ctx : SignCtx) (nHashType : Nat)
    (vs : List CMutableTransaction) :
    ∀ (is : List Nat) (st : CMutableTransaction × Bool),
      (∀ txv ∈ vs, st.1.vin.length ≤ txv.vin.length) →
      (∀ i ∈ is, i < st.1.vin.length) →
      ∃ st', signLoopAux ctx nHashType vs is st = .ok st' ∧
        UntouchedOutside is st'.1 st.1
  | [], st, _, _ => ⟨st, rfl, untouchedOutside_rfl [] st.1⟩
  | i :: is, st, hv, his => by
    obtain ⟨st1, h1, ht1⟩ := signStep_ok ctx nHashType vs st i hv
      (his i (List.mem_cons_self _ _))
    obtain ⟨st2, h2, ht2⟩ := signLoopAux_ok ctx nHashType vs is st1
      (fun t ht => by rw [ht1.1]; exact hv t ht)
      (fun i' hi' => by rw [ht1.1]; exact his i' (List.mem_cons_of_mem _ hi'))
    refine ⟨st2, ?_, untouchedOutside_cons ht1 ht2⟩
    simp [signLoopAux, h1, h2]

/-- Flag `fComplete` never recovers across a whole run. -/
theorem signLoopAux_snd_false (ctx : SignCtx) (nHashType : Nat)
    (vs : List CMutableTransaction) :
    ∀ (is : List Nat) (st st' : CMutableTransaction × Bool),
      st.2 = false → signLoopAux ctx nHashType vs is st = .ok st' →
      st'.2 = false
  | [], st, st', hsnd, h => by
    cases h
    exact hsnd
  | i :: is, st, st', hsnd, h => by
    simp only [signLoopAux] at h
    split at h
    · exact absurd h (by simp)
    · rename_i st1 hstep
      exact signLoopAux_snd_false ctx nHashType vs is st1 st'
        (signStep_snd_false ctx nHashType vs st i st1 hsnd hstep) h

/-- Splitting a run at an index-list concatenation. -/
theorem signLoopAux_append (ctx : SignCtx) (nHashType : Nat)
    (vs : List CMutableTransaction) :
    ∀ (l1 l2 : List Nat) (st : CMutableTransaction × Bool),
      signLoopAux ctx nHashType vs (l1 ++ l2) st =
        match signLoopAux ctx nHashType vs l1 st with
        | .error e => .error e
        | .ok st1 => signLoopAux ctx nHashType vs l2 st1
  | [], l2, st => rfl
  | i :: l1, l2, st => by
    simp only [List.cons_append, signLoopAux]
    cases signStep ctx nHashType vs st i with
    | error e => rfl
    | ok st1 => exact signLoopAux_append ctx nHashType vs l1 l2 st1

/-- Master lemma for an unresolvable previous output: the whole call still
succeeds, the completeness flag ends `false`, and input `i` — including its
unlocking script — is returned exactly as it was in the first variant. -/
theorem signraw_unresolved_master (ctx : SignCtx) (nHashType : Nat)
    (t0 : CMutableTransaction) (rest : List CMutableTransaction)
    (i : Nat) (txin : CTxIn)
    (hlen : ∀ txv ∈ t0 :: rest, t0.vin.length ≤ txv.vin.length)
    (hget : t0.vin[i]? = some txin)
    (hres : resolveCoin ctx.view txin.prevout = none) :
    ∃ tx', signrawtransactionCore ctx nHashType (t0 :: rest) = .ok (tx', false) ∧
      tx'.vin[i]? = some txin := by
  have hi : i < t0.vin.length := by
    rcases List.getElem?_eq_some_iff.mp hget with ⟨h, _⟩
    exact h
  have hin : i + (t0.vin.length - i) = t0.vin.length := by omega
  have hsplit : List.range' 0 t0.vin.length =
      List.range' 0 i ++ List.range' i (t0.vin.length - i) := by
    have h0 := List.range'_append_1 0 i (t0.vin.length - i)
    rw [Nat.zero_add] at h0
    rw [show t0.vin.length - i + i = t0.vin.length by omega] at h0
    exact h0.symm
  obtain ⟨st1, h1, hu1⟩ := signLoopAux_ok ctx nHashType (t0 :: rest)
    (List.range' 0 i) (t0, true) hlen
    (fun j hj => by
      rcases List.mem_range'_1.mp hj with ⟨_, hj2⟩
      show j < t0.vin.length
      omega)
  have hinot : i ∉ List.range' 0 i := by
    intro hmem
    rcases List.mem_range'_1.mp hmem with ⟨_, h2⟩
    omega
  have hgeti : st1.1.vin[i]? = some txin := by
    rw [hu1.2.2.2 i hinot]
    exact hget
  have hstep : signStep ctx nHashType (t0 :: rest) st1 i = .ok (st1.1, false) :=
    signStep_unresolved ctx nHashType (t0 :: rest) st1 i txin hgeti hres
  have hcons : List.range' i (t0.vin.length - i) =
      i :: List.range' (i + 1) (t0.vin.length - i - 1) := by
    rw [List.range'_eq_cons_iff]
    exact ⟨rfl, by omega, rfl⟩
  obtain ⟨st2, h2, hu2⟩ := signLoopAux_ok ctx nHashType (t0 :: rest)
    (List.range' (i + 1) (t0.vin.length - i - 1)) (st1.1, false)
    (fun t ht => by
      show st1.1.vin.length ≤ t.vin.length
      rw [hu1.1]
      exact hlen t ht)
    (fun j hj => by
      rcases List.mem_range'_1.mp hj with ⟨hj1, hj2⟩
      show j < st1.1.vin.length
      rw [hu1.1]
      show j < t0.vin.length
      omega)
  have hsnd : st2.2 = false :=
    signLoopAux_snd_false ctx nHashType (t0 :: rest) _ _ st2 rfl h2
  have hnot2 : i ∉ List.range' (i + 1) (t0.vin.length - i - 1) := by
    intro hmem
    rcases List.mem_range'_1.mp hmem with ⟨h4, _⟩
    omega
  refine ⟨st2.1, ?_, ?_⟩
  · show signLoopAux ctx nHashType (t0 :: rest) (List.range t0.vin.length)
      (t0, true) = .ok (st2.1, false)
    rw [List.range_eq_range', hsplit, signLoopAux_append, h1, hcons]
    simp only [signLoopAux]
    rw [hstep]
    show signLoopAux ctx nHashType (t0 :: rest)
      (List.range' (i + 1) (t0.vin.length - i - 1)) (st1.1, false) =
      .ok (st2.1, false)
    rw [h2, ← hsnd]
  · rw [hu2.2.2.2 i hnot2]
    exact hgeti

/-- When script verification rejects everything, a run over a nonempty
input list still succeeds but ends incomplete. -/
theorem signraw_verify_false (ctx : SignCtx) (nHashType : Nat)
    (t0 : CMutableTransaction) (rest : List CMutableTransaction)
    (hlen : ∀ txv ∈ t0 :: rest, t0.vin.length ≤ txv.vin.length)
    (hver : ∀ a b t j, ctx.verify a b t j = false)
    (hpos : 0 < t0.vin.length) :
    ∃ tx', signrawtransactionCore ctx nHashType (t0 :: rest) =
      .ok (tx', false) := by
  have hcons : List.range t0.vin.length =
      0 :: List.range' 1 (t0.vin.length - 1) := by
    rw [List.range_eq_range', List.range'_eq_cons_iff]
    exact ⟨rfl, by omega, rfl⟩
  obtain ⟨st1, h1, hu1⟩ := signStep_ok ctx nHashType (t0 :: rest) (t0, true) 0
    hlen hpos
  have hsnd1 : st1.2 = false :=
    signStep_snd_false_of_verify ctx nHashType (t0 :: rest) (t0, true) 0
      hver hpos st1 h1
  obtain ⟨st2, h2, hu2⟩ := signLoopAux_ok ctx nHashType (t0 :: rest)
    (List.range' 1 (t0.vin.length - 1)) st1
    (fun t ht => by
      rw [hu1.1]
      exact hlen t ht)
    (fun j hj => by
      rcases List.mem_range'_1.mp hj with ⟨hj1, hj2⟩
      rw [hu1.1]
      show j < t0.vin.length
      omega)
  have hsnd2 : st2.2 = false :=
    signLoopAux_snd_false ctx nHashType (t0 :: rest) _ st1 st2 hsnd1 h2
  refine ⟨st2.1, ?_⟩
  show signLoopAux ctx nHashType (t0 :: rest) (List.range t0.vin.length)
    (t0, true) = .ok (st2.1, false)
  rw [hcons]
  simp only [signLoopAux]
  rw [h1]
  show signLoopAux ctx nHashType (t0 :: rest)
    (List.range' 1 (t0.vin.length - 1)) st1 = .ok (st2.1, false)
  rw [h2, ← hsnd2]

/-- Under the variant-length precondition the whole call never errors. -/
theorem signraw_ok_of_lengths (ctx : SignCtx) (nHashType : Nat)
    (t0 : CMutableTransaction) (rest : List CMutableTransaction)
    (hlen : ∀ txv ∈ t0 :: rest, t0.vin.length ≤ txv.vin.length) :
    ∃ r, signrawtransactionCore ctx nHashType (t0 :: rest) = .ok r := by
  obtain ⟨st', h, _⟩ := signLoopAux_ok ctx nHashType (t0 :: rest)
    (List.range t0.vin.length) (t0, true) hlen
    (fun j hj => List.mem_range.mp hj)
  exact ⟨st', h⟩

/-! ### Concrete instances used to exercise the signing loop -/

/-- A coin record with a single available output. -/
def demoCoins : CCoins := ⟨[some ⟨0, []⟩], 0⟩

/-- A context whose view resolves everything to `demoCoins`. -/
def demoCtx : SignCtx :=
  ⟨fun _ => some demoCoins, fun _ _ _ _ => [], fun _ _ _ s _ => s,
   fun _ _ _ _ => true⟩

/-- A context whose view resolves nothing. -/
def emptyViewCtx : SignCtx :=
  ⟨fun _ => none, fun _ _ _ _ => [], fun _ _ _ s _ => s,
   fun _ _ _ _ => true⟩

/-- One input spending output 0 of transaction id 0, as yet unsigned. -/
def demoIn : CTxIn := ⟨⟨0, 0⟩, [], 0xFFFFFFFF⟩

/-- A one-input, zero-output transaction. -/
def demoTx : CMutableTransaction := { vin := [demoIn] }

/-- A transaction with no inputs at all (a shorter later variant). -/
def demoShortTx : CMutableTransaction := {}

/-- Claim C4: for every input of the merge target whose previous output
cannot be resolved in the warmed view, the input is left unsigned and the
overall result has completeness `false`, yet the call still returns a
(possibly partially signed) transaction rather than an error; the same
degradation — completeness `false`, no exception — happens when the final
script verification of an input fails. -/
theorem signraw_partial_failures_degrade_only (ctx : SignCtx) (nHashType : Nat)
    (t0 : CMutableTransaction) (rest : List CMutableTransaction)
    (hlen : ∀ txv ∈ t0 :: rest, t0.vin.length ≤ txv.vin.length) :
    (∀ (i : Nat) (txin : CTxIn), t0.vin[i]? = some txin →
        resolveCoin ctx.view txin.prevout = none →
        ∃ tx', signrawtransactionCore ctx nHashType (t0 :: rest) =
            .ok (tx', false) ∧ tx'.vin[i]? = some txin)
    ∧ ((∀ a b t j, ctx.verify a b t j = false) → 0 < t0.vin.length →
        ∃ tx', signrawtransactionCore ctx nHashType (t0 :: rest) =
            .ok (tx', false)) :=
  ⟨fun i txin hg hr =>
    signraw_unresolved_master ctx nHashType t0 rest i txin hlen hg hr,
   fun hver hpos => signraw_verify_false ctx nHashType t0 rest hlen hver hpos⟩

/-- Witness for C4: one unresolvable input, the call succeeds with
completeness `false` and the input untouched. -/
theorem signraw_partial_failures_degrade_only_witness :
    ∃ tx', signrawtransactionCore emptyViewCtx SIGHASH_ALL [demoTx] =
      .ok (tx', false) ∧ tx'.vin[0]? = some demoIn :=
  (signraw_partial_failures_degrade_only emptyViewCtx SIGHASH_ALL demoTx []
      (by
        intro t ht
        rw [List.mem_singleton] at ht
        subst ht
        exact le_rfl)).1
    0 demoIn rfl rfl

/-- Claim C8: an input whose previous output is unresolvable is skipped
entirely — its unlocking script in the returned merged transaction is
identical to the one in the first decoded variant (no clearing, no signing,
no merging for that input). -/
theorem signraw_unresolved_input_preserved (ctx : SignCtx) (nHashType : Nat)
    (t0 : CMutableTransaction) (rest : List CMutableTransaction)
    (i : Nat) (txin : CTxIn)
    (hlen : ∀ txv ∈ t0 :: rest, t0.vin.length ≤ txv.vin.length)
    (hget : t0.vin[i]? = some txin)
    (hres : resolveCoin ctx.view txin.prevout = none) :
    ∃ tx' c, signrawtransactionCore ctx nHashType (t0 :: rest) = .ok (tx', c) ∧
      tx'.vin[i]? = t0.vin[i]? := by
  obtain ⟨tx', h, hpres⟩ :=
    signraw_unresolved_master ctx nHashType t0 rest i txin hlen hget hres
  exact ⟨tx', false, h, by rw [hpres, hget]⟩

/-- Witness for C8: a pre-existing partial unlocking script on an
unresolvable input survives the call byte-for-byte. -/
theorem signraw_unresolved_input_preserved_witness :
    ∃ tx' c,
      signrawtransactionCore emptyViewCtx SIGHASH_ALL
        [{ vin := [⟨⟨5, 1⟩, [ScriptElem.push [1, 2]], 0⟩] }] = .ok (tx', c) ∧
      tx'.vin[0]? =
        ({ vin := [⟨⟨5, 1⟩, [ScriptElem.push [1, 2]], 0⟩] } :
          CMutableTransaction).vin[0]? :=
  signraw_unresolved_input_preserved emptyViewCtx SIGHASH_ALL
    { vin := [⟨⟨5, 1⟩, [ScriptElem.push [1, 2]], 0⟩] } [] 0
    ⟨⟨5, 1⟩, [ScriptElem.push [1, 2]], 0⟩
    (by
      intro t ht
      rw [List.mem_singleton] at ht
      subst ht
      exact le_rfl)
    rfl rfl

/-- Claim C9: the merge step reads `txv.vin[i]` for every variant with no
bounds check.  Under the precondition that every supplied variant has at
least as many inputs as the first, the call never errors; and for a
concrete input whose second variant has fewer inputs than the first, the
out-of-range branch is reached, in both `signrawtransaction` and
`signrawtokentransaction`. -/
theorem signraw_merge_indexing_bounds (ctx : SignCtx) (nHashType : Nat)
    (t0 : CMutableTransaction) (rest : List CMutableTransaction)
    (hlen : ∀ txv ∈ t0 :: rest, t0.vin.length ≤ txv.vin.length) :
    (∃ r, signrawtransactionCore ctx nHashType (t0 :: rest) = .ok r)
    ∧ signrawtransactionCore demoCtx SIGHASH_ALL [demoTx, demoShortTx] =
        .error SignErr.vinOutOfRange
    ∧ signrawtokentransactionCore demoCtx [demoTx, demoShortTx] =
        .error SignErr.vinOutOfRange :=
  ⟨signraw_ok_of_lengths ctx nHashType t0 rest hlen, rfl, rfl⟩

/-- Witness for C9 at a concrete equal-length variant list. -/
theorem signraw_merge_indexing_bounds_witness :
    (∃ r, signrawtransactionCore demoCtx SIGHASH_ALL [demoTx] = .ok r)
    ∧ signrawtransactionCore demoCtx SIGHASH_ALL [demoTx, demoShortTx] =
        .error SignErr.vinOutOfRange
    ∧ signrawtokentransactionCore demoCtx [demoTx, demoShortTx] =
        .error SignErr.vinOutOfRange :=
  signraw_merge_indexing_bounds demoCtx SIGHASH_ALL demoTx []
    (by
      intro t ht
      rw [List.mem_singleton] at ht
      subst ht
      exact le_rfl)

/-- Claim C6: for every input whose previous output resolves, the existing
unlocking script is cleared and a fresh signature is produced — unless the
selector is SINGLE (with or without ANYONECANPAY) and the transaction has
no output at this input's index, in which case the cleared (empty) script
is left in place instead of a fresh signature; merging over the variants
and the final verification run in either case. -/
theorem signStep_clears_then_signs (ctx : SignCtx) (nHashType : Nat)
    (vars : List CMutableTransaction) (st : CMutableTransaction × Bool)
    (i : Nat) (txin : CTxIn) (prevOut : CTxOut)
    (hget : st.1.vin[i]? = some txin)
    (hres : resolveCoin ctx.view txin.prevout = some prevOut) :
    signStep ctx nHashType vars st i =
      (mergeLoop ctx prevOut.scriptPubKey i vars
          (setVinScript st.1 i
            (if fHashSingle nHashType && !(decide (i < st.1.vout.length)) then
              []
            else
              ctx.sign prevOut.scriptPubKey (setVinScript st.1 i []) i
                nHashType))).map
        (fun merged =>
          (merged,
            st.2 && ctx.verify (scriptSigAt merged i) prevOut.scriptPubKey
              merged i)) := by
  simp only [signStep, hget, hres, setVinScript_vout]
  cases hfs : fHashSingle nHashType <;>
    by_cases hlt : i < st.1.vout.length <;>
      simp [hfs, hlt, setVinScript_setVinScript, Nat.not_lt]

/-- Witness for C6: a SINGLE selector with no output at index 0 clears the
input's script without producing a fresh signature, and merging and
verification still run. -/
theorem signStep_clears_then_signs_witness :
    signStep demoCtx SIGHASH_SINGLE [demoTx] (demoTx, true) 0 =
      (mergeLoop demoCtx (⟨0, []⟩ : CTxOut).scriptPubKey 0 [demoTx]
          (setVinScript demoTx 0
            (if fHashSingle SIGHASH_SINGLE &&
                !(decide (0 < demoTx.vout.length)) then
              []
            else
              demoCtx.sign (⟨0, []⟩ : CTxOut).scriptPubKey
                (setVinScript demoTx 0 []) 0 SIGHASH_SINGLE))).map
        (fun merged =>
          (merged,
            true && demoCtx.verify (scriptSigAt merged 0)
              (⟨0, []⟩ : CTxOut).scriptPubKey merged 0)) :=
  signStep_clears_then_signs demoCtx SIGHASH_SINGLE [demoTx] (demoTx, true) 0
    demoIn ⟨0, []⟩ rfl rfl

/-! ### Submission Gateway (`sendrawtransaction`, lines 772-835) -/

/-- Outcome of `AcceptToMemoryPool`, the external admission collaborator:
accepted, rejected with `state.IsInvalid()` (code and reason), or failed
otherwise (reason only). -/
inductive AcceptOutcome where
  | accepted
  | invalid (code : Nat) (reason : List Char)
  | failed (reason : List Char)
deriving DecidableEq, Repr

/-- The `JSONRPCError`s `sendrawtransaction` can throw after decoding. -/
inductive SendErr where
  | rejected (code : Nat) (reason : List Char)
  | txError (reason : List Char)
  | alreadyInChain
deriving DecidableEq, Repr

/-- Observable effects of a successful submission: whether the transaction
was admitted to the pending pool (`AcceptToMemoryPool` + `SyncWithWallets`)
and whether it was relayed (`RelayTransaction`), plus the returned id. -/
structure SendEffects where
  admitted : Bool
  synced : Bool
  relayed : Bool
  result : Nat
deriving DecidableEq, Repr

/-- RPC `sendrawtransaction` after decoding the transaction, with the mempool
membership test, the chain coin view and `AcceptToMemoryPool` as abstract
collaborators.  `fHaveChain` is
`view.GetCoins(hashTx, existingCoins) && existingCoins.nHeight < 1000000000`;
if neither holds the transaction is admitted (and on success synced and
relayed); if `fHaveChain` holds the call throws "already in block chain";
otherwise (mempool only) nothing is admitted but
`RelayTransaction(tx, hashTx)` still runs and the call succeeds. -/
def sendrawtransactionCore (mempoolExists : Nat → Bool)
    (chainCoins : Nat → Option CCoins) (accept : Bool → AcceptOutcome)
    (hashTx : Nat) (fOverrideFees : Bool) : Except SendErr SendEffects :=
  let fHaveMempool := mempoolExists hashTx
  let fHaveChain :=
    match chainCoins hashTx with
    | some c => decide (c.nHeight < 1000000000)
    | none => false
  if !fHaveMempool && !fHaveChain then
    match accept (!fOverrideFees) with
    | .accepted => .ok ⟨true, true, true, hashTx⟩
    | .invalid code reason => .error (.rejected code reason)
    | .failed reason => .error (.txError reason)
  else if fHaveChain then
    .error .alreadyInChain
  else
    .ok ⟨false, false, true, hashTx⟩

/-- Counterexample to claim C2 as stated: a transaction whose id already
exists in the pending pool (and not in the chain) does NOT fail — the call
succeeds without re-admitting, and it IS re-relayed. -/
theorem sendraw_mempool_duplicate_relays :
    sendrawtransactionCore (fun _ => true) (fun _ => none) (fun _ => .accepted)
        7 false = .ok ⟨false, false, true, 7⟩ ∧
    (sendrawtransactionCore (fun _ => true) (fun _ => none)
        (fun _ => .accepted) 7 false ≠ .error .alreadyInChain) ∧
    (∀ eff, sendrawtransactionCore (fun _ => true) (fun _ => none)
        (fun _ => .accepted) 7 false = .ok eff → eff.relayed = true) := by
  refine ⟨rfl, fun h => Except.noConfusion h, ?_⟩
  intro eff h
  cases h
  rfl

/-- Claim C2 amended: a transaction confirmed at a plausible height fails
with "already in block chain" and is neither re-admitted nor re-relayed
(the call returns no effects at all); a transaction that exists only in the
pending pool is not re-admitted, but the call succeeds and re-relays it. -/
theorem sendraw_duplicate_handling (mempoolExists : Nat → Bool)
    (chainCoins : Nat → Option CCoins) (accept : Bool → AcceptOutcome)
    (hashTx : Nat) (fOverrideFees : Bool) :
    (∀ c, chainCoins hashTx = some c → c.nHeight < 1000000000 →
      sendrawtransactionCore mempoolExists chainCoins accept hashTx
        fOverrideFees = .error .alreadyInChain)
    ∧ (mempoolExists hashTx = true →
       (∀ c, chainCoins hashTx = some c → 1000000000 ≤ c.nHeight) →
       sendrawtransactionCore mempoolExists chainCoins accept hashTx
         fOverrideFees = .ok ⟨false, false, true, hashTx⟩) := by
  constructor
  · intro c hc hh
    simp [sendrawtransactionCore, hc, hh]
  · intro hm hc
    cases hcc : chainCoins hashTx with
    | none => simp [sendrawtransactionCore, hm, hcc]
    | some c =>
      have hge := hc c hcc
      simp [sendrawtransactionCore, hm, hcc, Int.not_lt.mpr hge]

/-- Witness for the amended C2 at concrete states: one id confirmed at
height 5 fails with the already-in-chain error; one id known only to the
mempool succeeds, unadmitted but relayed. -/
theorem sendraw_duplicate_handling_witness :
    sendrawtransactionCore (fun _ => false) (fun _ => some ⟨[], 5⟩)
        (fun _ => .accepted) 3 false = .error .alreadyInChain ∧
    sendrawtransactionCore (fun _ => true) (fun _ => none)
        (fun _ => .accepted) 9 true = .ok ⟨false, false, true, 9⟩ :=
  ⟨(sendraw_duplicate_handling (fun _ => false) (fun _ => some ⟨[], 5⟩)
      (fun _ => .accepted) 3 false).1 ⟨[], 5⟩ rfl (by decide),
   (sendraw_duplicate_handling (fun _ => true) (fun _ => none)
      (fun _ => .accepted) 9 true).2 rfl (fun c hc => by cases hc)⟩

/-! ### Token Protocol: funding-output selection (`inittoken`,
lines 1207-1231) -/

/-- The `inittoken` scan for the funding output:
`nOutput` starts at 0 and is incremented for every output whose amount is
not exactly `1001 * COIN`; the loop breaks at the first match.  When no
output matches, the loop runs off the end and `nOutput` equals the number
of outputs. -/
def fundingOutputIndex : List CTxOut → Nat
  | [] => 0
  | o :: rest =>
    if o.nValue = 1001 * COIN then 0 else fundingOutputIndex rest + 1

/-- Counterexample to claim C3 as stated: with a single output of 5 COIN
(so no output of exactly 1001 COIN), the chosen funding index is 1 — the
number of outputs, one past the last valid index — not 0. -/
theorem fundingOutputIndex_no_match_not_zero :
    (∀ o ∈ [({ nValue := 5 * COIN, scriptPubKey := [] } : CTxOut)],
      o.nValue ≠ 1001 * COIN) ∧
    fundingOutputIndex [{ nValue := 5 * COIN, scriptPubKey := [] }] = 1 ∧
    (1 : Nat) ≠ 0 := by
  refine ⟨?_, rfl, one_ne_zero⟩
  intro o ho
  rw [List.mem_singleton] at ho
  subst ho
  decide

/-- Claim C3 amended: the funding index is that of the first output (in
output order) whose amount equals exactly `1001 * COIN`; if no output
matches, the index equals the total number of outputs (one past the last
index) rather than 0. -/
theorem fundingOutputIndex_spec :
    (∀ (pre : List CTxOut) (o : CTxOut) (post : List CTxOut),
      (∀ p ∈ pre, p.nValue ≠ 1001 * COIN) → o.nValue = 1001 * COIN →
      fundingOutputIndex (pre ++ o :: post) = pre.length)
    ∧ (∀ vout : List CTxOut, (∀ o ∈ vout, o.nValue ≠ 1001 * COIN) →
       fundingOutputIndex vout = vout.length) := by
  constructor
  · intro pre o post hpre ho
    induction pre with
    | nil => simp [fundingOutputIndex, ho]
    | cons p ps ih =>
      have hp : p.nValue ≠ 1001 * COIN := hpre p (List.mem_cons_self _ _)
      simp only [List.cons_append, fundingOutputIndex, if_neg hp,
        List.length_cons, List.append_eq]
      rw [ih (fun q hq => hpre q (List.mem_cons_of_mem _ hq))]
  · intro vout hv
    induction vout with
    | nil => rfl
    | cons o os ih =>
      have ho : o.nValue ≠ 1001 * COIN := hv o (List.mem_cons_self _ _)
      simp only [fundingOutputIndex, if_neg ho, List.length_cons]
      rw [ih (fun q hq => hv q (List.mem_cons_of_mem _ hq))]

/-- Witness for the amended C3: a first match at position 1, and a
no-match list of length 2. -/
theorem fundingOutputIndex_spec_witness :
    fundingOutputIndex
      [{ nValue := 7, scriptPubKey := [] },
       { nValue := 1001 * COIN, scriptPubKey := [] },
       { nValue := 1001 * COIN, scriptPubKey := [] }] = 1 ∧
    fundingOutputIndex
      [{ nValue := 7, scriptPubKey := [] },
       { nValue := 8, scriptPubKey := [] }] = 2 := by
  constructor
  · have h := fundingOutputIndex_spec.1
      [{ nValue := 7, scriptPubKey := [] }]
      { nValue := 1001 * COIN, scriptPubKey := [] }
      [{ nValue := 1001 * COIN, scriptPubKey := [] }]
      (by
        intro p hp
        rw [List.mem_singleton] at hp
        subst hp
        decide)
      rfl
    simpa using h
  · have h := fundingOutputIndex_spec.2
      [{ nValue := 7, scriptPubKey := [] }, { nValue := 8, scriptPubKey := [] }]
      (by
        intro o ho
        rcases List.mem_cons.mp ho with h1 | h1
        · subst h1
          decide
        · rw [List.mem_singleton] at h1
          subst h1
          decide)
    simpa using h

/-! ### Transaction Builder (`createrawtransaction`, lines 317-432)

C++ `std::string`s are modelled as `List Char` so that the splitting,
hex-parsing and number-parsing helpers compute structurally. -/

/-- The hard errors `createrawtransaction` can throw: bad/negative
parameters, non-hex data, an address failing validation, an address
repeated in the output spec. -/
inductive BuildErr where
  | invalidParameter
  | invalidHexData
  | invalidAddress (name : List Char)
  | duplicateAddress (name : List Char)
deriving DecidableEq, Repr

/-- Helper `boost::split(str, hexdata, boost::is_any_of(":"))`: split into the
(possibly empty) fragments between ':' separators; never returns an empty
list. -/
def splitCols : List Char → List (List Char)
  | [] => [[]]
  | c :: rest =>
    if c = ':' then [] :: splitCols rest
    else
      match splitCols rest with
      | [] => [[c]]
      | g :: gs => (c :: g) :: gs

/-- Value of one hex digit, upper or lower case. -/
def hexDigitVal (c : Char) : Option Nat :=
  if '0' ≤ c ∧ c ≤ '9' then some (c.toNat - 48)
  else if 'a' ≤ c ∧ c ≤ 'f' then some (c.toNat - 87)
  else if 'A' ≤ c ∧ c ≤ 'F' then some (c.toNat - 55)
  else none

/-- Helper `ParseHex`: decode pairs of hex digits, high nibble first. -/
def parseHexBytes : List Char → Option (List Nat)
  | [] => some []
  | [_] => none
  | c1 :: c2 :: rest =>
    match hexDigitVal c1, hexDigitVal c2, parseHexBytes rest with
    | some hi, some lo, some bs => some ((16 * hi + lo) :: bs)
    | _, _, _ => none

/-- Helper `ParseHexV` (`rpcserver.cpp`, an external helper): requires a nonempty
all-hex even-length string (`IsHex`), else throws an invalid-parameter
error. -/
def parseHexV (s : List Char) : Except BuildErr (List Nat) :=
  match s, parseHexBytes s with
  | [], _ => .error .invalidHexData
  | _, none => .error .invalidHexData
  | _, some bs => .ok bs

/-- Decimal value of a digit prefix, most significant first. -/
def natOfDigits : List Char → Nat → Nat
  | [], acc => acc
  | c :: rest, acc =>
    if c.isDigit then natOfDigits rest (10 * acc + (c.toNat - 48))
    else acc

/-- Library `strtoll(s, NULL, 10)` on the relevant inputs: skip leading spaces,
read an optional sign and then the longest digit prefix (0 when there are
no digits). -/
def strtoll (s : List Char) : Int :=
  let s1 := s.dropWhile (fun c => c = ' ')
  match s1 with
  | '-' :: r => -(Int.ofNat (natOfDigits r 0))
  | '+' :: r => Int.ofNat (natOfDigits r 0)
  | _ => Int.ofNat (natOfDigits s1 0)

/-- The value attached to one output-spec key: a JSON string (as used by
`data` entries) or a JSON amount already converted by `AmountFromValue`
(as used by address entries). -/
inductive SendToVal where
  | str (s : List Char)
  | amt (n : Int)
deriving DecidableEq, Repr

/-- Key `"data"`, the reserved output-spec key. -/
def dataKey : List Char := ['d', 'a', 't', 'a']

/-- Accessor `Value::get_str()`: throws unless the value is a string. -/
def getStr : SendToVal → Except BuildErr (List Char)
  | .str s => .ok s
  | .amt _ => .error .invalidParameter

/-- Helper `AmountFromValue`: the external display-amount conversion; a `data`
string is not a number. -/
def amountFromValue : SendToVal → Except BuildErr Int
  | .str _ => .error .invalidParameter
  | .amt n => .ok n

/-- The `data` branch of the output loop: split the string value on ':',
hex-decode the first fragment, read the amount from the second fragment
when there are exactly two, and build the output
`CTxOut(max(DEFAULT_AMOUNT, amount) * COIN, CScript() << OP_RETURN << data)`
with `DEFAULT_AMOUNT = 0`. -/
def dataEntryOutput (s : List Char) : Except BuildErr CTxOut :=
  match splitCols s with
  | [] => .error .invalidParameter
  | h :: t =>
    match parseHexV h with
    | .error e => .error e
    | .ok dataBytes =>
      let amount : Int :=
        match t with
        | [a] => strtoll a
        | _ => 0
      .ok ⟨max 0 amount * COIN,
        [ScriptElem.op OP_RETURN, ScriptElem.push dataBytes]⟩

/-- The output loop of `createrawtransaction`: each entry is either the
reserved `data` key (appending one commitment output) or an address key,
which must decode to a valid address (`InvalidAddress` otherwise) not seen
before in this call (`DuplicateAddress` otherwise); a valid fresh address
appends one ordinary output paying `AmountFromValue(value)` to the
address's locking script.  `decodeAddr` abstracts
`CBitcoinAddress::IsValid/Get` and `destScript` abstracts
`CScript::SetDestination`; the decoded-address set `seen` mirrors
`setAddress`. -/
def processOutputs (decodeAddr : List Char → Option Nat)
    (destScript : Nat → Script) :
    List (List Char × SendToVal) → List Nat →
    Except BuildErr (List CTxOut × List Nat)
  | [], seen => .ok ([], seen)
  | (name, v) :: rest, seen =>
    if name = dataKey then
      match getStr v with
      | .error e => .error e
      | .ok s =>
        match dataEntryOutput s with
        | .error e => .error e
        | .ok out =>
          match processOutputs decodeAddr destScript rest seen with
          | .error e => .error e
          | .ok (outs, seen1) => .ok (out :: outs, seen1)
    else
      match decodeAddr name with
      | none => .error (.invalidAddress name)
      | some a =>
        if a ∈ seen then .error (.duplicateAddress name)
        else
          match amountFromValue v with
          | .error e => .error e
          | .ok nAmount =>
            match processOutputs decodeAddr destScript rest (a :: seen) with
            | .error e => .error e
            | .ok (outs, seen1) => .ok (⟨nAmount, destScript a⟩ :: outs, seen1)

/-- One entry of the input spec: txid, `vout` (must be nonnegative) and an
optional sequence override (must be nonnegative). -/
structure InputSpec where
  txid : Nat
  vout : Int
  sequence : Option Int
deriving DecidableEq, Repr

/-- The input loop of `createrawtransaction`: each entry appends one input
with an empty unlocking script; the sequence defaults to the unsigned-int
maximum unless overridden. -/
def processInputs : List InputSpec → Except BuildErr (List CTxIn)
  | [] => .ok []
  | sp :: rest =>
    if sp.vout < 0 then .error .invalidParameter
    else
      match
        (match sp.sequence with
        | none => Except.ok (0xFFFFFFFF : Nat)
        | some sq =>
          if sq < 0 then .error BuildErr.invalidParameter
          else .ok sq.toNat) with
      | .error e => .error e
      | .ok nSeq =>
        match processInputs rest with
        | .error e => .error e
        | .ok ins => .ok (⟨⟨sp.txid, sp.vout.toNat⟩, [], nSeq⟩ :: ins)

/-- RPC `createrawtransaction` after JSON validation: build the inputs, then
the outputs, and return the assembled unsigned transaction (its hex
encoding in the C++; the codec is external). -/
def createrawtransactionCore (decodeAddr : List Char → Option Nat)
    (destScript : Nat → Script) (inputs : List InputSpec)
    (sendTo : List (List Char × SendToVal)) :
    Except BuildErr CMutableTransaction :=
  match processInputs inputs with
  | .error e => .error e
  | .ok vin =>
    match processOutputs decodeAddr destScript sendTo [] with
    | .error e => .error e
    | .ok (vout, _) => .ok { nVersion := 1, vin := vin, vout := vout, nLockTime := 0 }

/-- Claim C5: an output-spec entry with key `data` and value
`<hex-bytes>` or `<hex-bytes>:<integer-amount>` appends exactly one output
whose locking script is the null-data opcode followed by the pushed decoded
bytes and whose amount is `max(0, suppliedAmount)` base units, defaulting
to 0 when the amount is omitted. -/
theorem createraw_data_appends_opreturn (decodeAddr : List Char → Option Nat)
    (destScript : Nat → Script) (s h amtS : List Char) (bytes : List Nat)
    (rest : List (List Char × SendToVal)) (seen : List Nat) :
    (splitCols s = [h] → parseHexV h = .ok bytes →
      processOutputs decodeAddr destScript ((dataKey, .str s) :: rest) seen =
        (processOutputs decodeAddr destScript rest seen).map
          (fun r =>
            (⟨0, [ScriptElem.op OP_RETURN, ScriptElem.push bytes]⟩ :: r.1,
             r.2)))
    ∧ (splitCols s = [h, amtS] → parseHexV h = .ok bytes →
      processOutputs decodeAddr destScript ((dataKey, .str s) :: rest) seen =
        (processOutputs decodeAddr destScript rest seen).map
          (fun r =>
            (⟨max 0 (strtoll amtS) * COIN,
              [ScriptElem.op OP_RETURN, ScriptElem.push bytes]⟩ :: r.1,
             r.2))) := by
  constructor
  · intro hs hx
    have hde : dataEntryOutput s =
        .ok ⟨0, [ScriptElem.op OP_RETURN, ScriptElem.push bytes]⟩ := by
      simp [dataEntryOutput, hs, hx]
    cases hrest : processOutputs decodeAddr destScript rest seen with
    | error e => simp [processOutputs, getStr, hde, hrest, Except.map]
    | ok pr =>
      obtain ⟨outs, sn⟩ := pr
      simp [processOutputs, getStr, hde, hrest, Except.map]
  · intro hs hx
    have hde : dataEntryOutput s =
        .ok ⟨max 0 (strtoll amtS) * COIN,
          [ScriptElem.op OP_RETURN, ScriptElem.push bytes]⟩ := by
      simp [dataEntryOutput, hs, hx]
    cases hrest : processOutputs decodeAddr destScript rest seen with
    | error e => simp [processOutputs, getStr, hde, hrest, Except.map]
    | ok pr =>
      obtain ⟨outs, sn⟩ := pr
      simp [processOutputs, getStr, hde, hrest, Except.map]

/-- Witness for C5: `{"data":"00010203:5"}` yields one output of amount
`5 * COIN` whose script is `OP_RETURN` followed by the bytes 00 01 02 03. -/
theorem createraw_data_appends_opreturn_witness :
    processOutputs (fun _ => none) (fun _ => [])
      [(dataKey,
        SendToVal.str ['0', '0', '0', '1', '0', '2', '0', '3', ':', '5'])]
      [] =
      .ok ([⟨5 * COIN, [ScriptElem.op OP_RETURN, ScriptElem.push [0, 1, 2, 3]]⟩],
        []) := by
  have h := (createraw_data_appends_opreturn (fun _ => none) (fun _ => [])
      ['0', '0', '0', '1', '0', '2', '0', '3', ':', '5']
      ['0', '0', '0', '1', '0', '2', '0', '3'] ['5'] [0, 1, 2, 3] [] []).2
    rfl rfl
  rw [h]
  rfl

/-- Processing a spec that starts with a successfully processed prefix
continues from the prefix's accumulated address set. -/
theorem processOutputs_ok_append (decodeAddr : List Char → Option Nat)
    (destScript : Nat → Script) (post : List (List Char × SendToVal)) :
    ∀ (pre : List (List Char × SendToVal)) (seen outs S : _),
      processOutputs decodeAddr destScript pre seen = .ok (outs, S) →
      processOutputs decodeAddr destScript (pre ++ post) seen =
        match processOutputs decodeAddr destScript post S with
        | .error e => .error e
        | .ok (outs2, seen2) => .ok (outs ++ outs2, seen2)
  | [], seen, outs, S, h => by
    cases h
    simp only [List.nil_append]
    cases hpost : processOutputs decodeAddr destScript post seen with
    | error e => rfl
    | ok pr =>
      obtain ⟨outs2, seen2⟩ := pr
      simp
  | (nm, vv) :: pre, seen, outs, S, h => by
    by_cases hnm : nm = dataKey
    · subst hnm
      cases hg : getStr vv with
      | error e => simp [processOutputs, hg] at h
      | ok s =>
        cases hd : dataEntryOutput s with
        | error e => simp [processOutputs, hg, hd] at h
        | ok out =>
          cases hrec : processOutputs decodeAddr destScript pre seen with
          | error e => simp [processOutputs, hg, hd, hrec] at h
          | ok pr =>
            obtain ⟨outs1, seen1⟩ := pr
            simp [processOutputs, hg, hd, hrec] at h
            obtain ⟨h1, h2⟩ := h
            subst h1
            subst h2
            have hIH := processOutputs_ok_append decodeAddr destScript post
              pre seen outs1 seen1 hrec
            cases hpost : processOutputs decodeAddr destScript post seen1 with
            | error e2 =>
              simp [processOutputs, hg, hd, hIH, hpost]
            | ok pr2 =>
              obtain ⟨outs2, seen2⟩ := pr2
              simp [processOutputs, hg, hd, hIH, hpost]
    · cases hda : decodeAddr nm with
      | none => simp [processOutputs, hnm, hda] at h
      | some a =>
        by_cases hmem : a ∈ seen
        · simp [processOutputs, hnm, hda, hmem] at h
        · cases hav : amountFromValue vv with
          | error e => simp [processOutputs, hnm, hda, hmem, hav] at h
          | ok nAmount =>
            cases hrec : processOutputs decodeAddr destScript pre (a :: seen)
              with
            | error e => simp [processOutputs, hnm, hda, hmem, hav, hrec] at h
            | ok pr =>
              obtain ⟨outs1, seen1⟩ := pr
              simp [processOutputs, hnm, hda, hmem, hav, hrec] at h
              obtain ⟨h1, h2⟩ := h
              subst h1
              subst h2
              have hIH := processOutputs_ok_append decodeAddr destScript post
                pre (a :: seen) outs1 seen1 hrec
              cases hpost : processOutputs decodeAddr destScript post seen1
                with
              | error e2 =>
                simp [processOutputs, hnm, hda, hmem, hav, hIH, hpost]
              | ok pr2 =>
                obtain ⟨outs2, seen2⟩ := pr2
                simp [processOutputs, hnm, hda, hmem, hav, hIH, hpost]

/-- The accumulated address set of a successful run contains the initial
set and the decoded address of every non-`data` entry processed. -/
theorem processOutputs_seen_accum (decodeAddr : List Char → Option Nat)
    (destScript : Nat → Script) :
    ∀ (entries : List (List Char × SendToVal)) (seen outs S : _),
      processOutputs decodeAddr destScript entries seen = .ok (outs, S) →
      (∀ x ∈ seen, x ∈ S) ∧
      (∀ nm vv a, (nm, vv) ∈ entries → nm ≠ dataKey →
        decodeAddr nm = some a → a ∈ S)
  | [], seen, outs, S, h => by
    simp [processOutputs] at h
    obtain ⟨h1, h2⟩ := h
    subst h2
    exact ⟨fun x hx => hx,
      fun nm vv a hmem => absurd hmem (List.not_mem_nil _)⟩
  | (n1, v1) :: entries, seen, outs, S, h => by
    by_cases hn1 : n1 = dataKey
    · subst hn1
      cases hg : getStr v1 with
      | error e => simp [processOutputs, hg] at h
      | ok s =>
        cases hd : dataEntryOutput s with
        | error e => simp [processOutputs, hg, hd] at h
        | ok out =>
          cases hrec : processOutputs decodeAddr destScript entries seen with
          | error e => simp [processOutputs, hg, hd, hrec] at h
          | ok pr =>
            obtain ⟨outs1, seen1⟩ := pr
            simp [processOutputs, hg, hd, hrec] at h
            obtain ⟨h1, h2⟩ := h
            subst h2
            obtain ⟨hsub, hmem⟩ := processOutputs_seen_accum decodeAddr
              destScript entries seen outs1 seen1 hrec
            refine ⟨hsub, fun nm vv a hin hnd hda => ?_⟩
            rcases List.mem_cons.mp hin with heq | htail
            · cases heq
              exact absurd rfl hnd
            · exact hmem nm vv a htail hnd hda
    · cases hda1 : decodeAddr n1 with
      | none => simp [processOutputs, hn1, hda1] at h
      | some a1 =>
        by_cases hm : a1 ∈ seen
        · simp [processOutputs, hn1, hda1, hm] at h
        · cases hav : amountFromValue v1 with
          | error e => simp [processOutputs, hn1, hda1, hm, hav] at h
          | ok nAmount =>
            cases hrec : processOutputs decodeAddr destScript entries
              (a1 :: seen) with
            | error e => simp [processOutputs, hn1, hda1, hm, hav, hrec] at h
            | ok pr =>
              obtain ⟨outs1, seen1⟩ := pr
              simp [processOutputs, hn1, hda1, hm, hav, hrec] at h
              obtain ⟨h1, h2⟩ := h
              subst h2
              obtain ⟨hsub, hmemrec⟩ := processOutputs_seen_accum decodeAddr
                destScript entries (a1 :: seen) outs1 seen1 hrec
              refine ⟨fun x hx => hsub x (List.mem_cons_of_mem _ hx),
                fun nm vv a hin hnd hda => ?_⟩
              rcases List.mem_cons.mp hin with heq | htail
              · cases heq
                rw [hda1] at hda
                cases hda
                exact hsub a1 (List.mem_cons_self _ _)
              · exact hmemrec nm vv a htail hnd hda

/-- Claim C7: a non-`data` output key that does not decode to a valid
address fails the whole call with `InvalidAddress`; a (valid) non-`data`
address key that already appeared earlier in the output spec fails the
whole call with `DuplicateAddress`.  In either case the builder returns an
error and no transaction — nothing is partially built. -/
theorem createraw_address_validation (decodeAddr : List Char → Option Nat)
    (destScript : Nat → Script) (inputs : List InputSpec) (vin : List CTxIn)
    (pre rest : List (List Char × SendToVal)) (name : List Char)
    (v : SendToVal) (outs : List CTxOut) (S : List Nat)
    (hin : processInputs inputs = .ok vin)
    (hpre : processOutputs decodeAddr destScript pre [] = .ok (outs, S))
    (hname : name ≠ dataKey) :
    (decodeAddr name = none →
      createrawtransactionCore decodeAddr destScript inputs
        (pre ++ (name, v) :: rest) = .error (.invalidAddress name))
    ∧ (∀ v1 a, (name, v1) ∈ pre → decodeAddr name = some a →
      createrawtransactionCore decodeAddr destScript inputs
        (pre ++ (name, v) :: rest) = .error (.duplicateAddress name)) := by
  have happ := processOutputs_ok_append decodeAddr destScript
    ((name, v) :: rest) pre [] outs S hpre
  constructor
  · intro hd
    have hinner : processOutputs decodeAddr destScript ((name, v) :: rest) S =
        .error (.invalidAddress name) := by
      simp [processOutputs, hname, hd]
    simp [createrawtransactionCore, hin, happ, hinner]
  · intro v1 a hmem hd
    have haS : a ∈ S :=
      (processOutputs_seen_accum decodeAddr destScript pre [] outs S hpre).2
        name v1 a hmem hname hd
    have hinner : processOutputs decodeAddr destScript ((name, v) :: rest) S =
        .error (.duplicateAddress name) := by
      simp [processOutputs, hname, hd, haS]
    simp [createrawtransactionCore, hin, happ, hinner]

/-- A tiny address decoder: `"A"` and `"B"` are the valid addresses. -/
def demoDecode : List Char → Option Nat
  | ['A'] => some 1
  | ['B'] => some 2
  | _ => none

/-- Witness for C7: an invalid address key fails with `InvalidAddress`; a
repeated valid address key fails with `DuplicateAddress`. -/
theorem createraw_address_validation_witness :
    createrawtransactionCore demoDecode (fun _ => []) []
        [(['A'], .amt 3), (['C'], .amt 1)] =
      .error (.invalidAddress ['C']) ∧
    createrawtransactionCore demoDecode (fun _ => []) []
        [(['A'], .amt 3), (['A'], .amt 5)] =
      .error (.duplicateAddress ['A']) :=
  ⟨(createraw_address_validation demoDecode (fun _ => []) [] []
      [(['A'], .amt 3)] [] ['C'] (.amt 1) [⟨3, []⟩] [1] rfl rfl
      (by decide)).1 rfl,
   (createraw_address_validation demoDecode (fun _ => []) [] []
      [(['A'], .amt 3)] [] ['A'] (.amt 5) [⟨3, []⟩] [1] rfl rfl
      (by decide)).2 (.amt 3) 1 (List.mem_singleton.mpr rfl) rfl⟩

/-! ### Token Protocol: the bespoke hex encoder
(`GetHexStringFromBytes`, lines 957-1034)

The C++ iterates over `char` (signed on the build targets), so a byte
`b ≥ 128` is seen as the two's-complement value `b - 256`.  The arithmetic
right shift `character >> 4` on a two's-complement integer is floor
division by 16, and `& 0x0F` keeps the nonnegative remainder mod 16; they
are modelled as `Int.fdiv · 16` and `Int.emod · 16`. -/

/-- The value of a byte read through a signed `char`. -/
def sbyte (b : Nat) : Int := if b < 128 then (b : Int) else (b : Int) - 256

/-- The 16-branch `if/else if` chain of `GetHexStringFromBytes`, applied to
one nibble: the appended digit character, or nothing for a value outside
0..15 (no branch matches). -/
def nibbleChars (h : Int) : List Char :=
  if h = 0 then ['0'] else if h = 1 then ['1'] else if h = 2 then ['2']
  else if h = 3 then ['3'] else if h = 4 then ['4'] else if h = 5 then ['5']
  else if h = 6 then ['6'] else if h = 7 then ['7'] else if h = 8 then ['8']
  else if h = 9 then ['9'] else if h = 10 then ['a'] else if h = 11 then ['b']
  else if h = 12 then ['c'] else if h = 13 then ['d'] else if h = 14 then ['e']
  else if h = 15 then ['f'] else []

/-- Encoder `GetHexStringFromBytes`: for every byte, split the signed `char` value
into `firstHalf = (character >> 4) & 0x0F` and
`secondHalf = character & 0x0F` and append the matching digit characters. -/
def GetHexStringFromBytes : List Nat → List Char
  | [] => []
  | b :: rest =>
    let character : Int := sbyte b
    let firstHalf : Int := Int.emod (Int.fdiv character 16) 16
    let secondHalf : Int := Int.emod character 16
    (nibbleChars firstHalf ++ nibbleChars secondHalf) ++
      GetHexStringFromBytes rest

/-- One lowercase hex digit (the spec's alphabet 0-9, a-f). -/
def hexDigitChar (n : Nat) : Char :=
  if n < 10 then Char.ofNat (48 + n) else Char.ofNat (87 + n)

/-- The standard lowercase hexadecimal encoding the spec refers to (the
library `HexStr`): two lowercase digits per byte, high nibble first, bytes
in order. -/
def hexStrSpec : List Nat → List Char
  | [] => []
  | b :: rest => hexDigitChar (b / 16) :: hexDigitChar (b % 16) :: hexStrSpec rest

theorem byteHexFin : ∀ b : Fin 256,
    nibbleChars (Int.emod (Int.fdiv (sbyte b.val) 16) 16) ++
      nibbleChars (Int.emod (sbyte b.val) 16) =
    [hexDigitChar (b.val / 16), hexDigitChar (b.val % 16)] := by decide

theorem byteHex_eq (b : Nat) (hb : b < 256) :
    nibbleChars (Int.emod (Int.fdiv (sbyte b) 16) 16) ++
      nibbleChars (Int.emod (sbyte b) 16) =
    [hexDigitChar (b / 16), hexDigitChar (b % 16)] :=
  byteHexFin ⟨b, hb⟩

/-- Claim C10: on every byte vector, the bespoke nibble-by-nibble encoder
`GetHexStringFromBytes` agrees with the standard lowercase hexadecimal
encoding (the library `HexStr`): two lowercase digits per byte, high
nibble first, bytes in order — also for bytes ≥ 0x80, where the signed
`char` arithmetic still lands in the correct branches. -/
theorem GetHexStringFromBytes_eq_hexStrSpec (v : List Nat)
    (hv : ∀ b ∈ v, b < 256) : GetHexStringFromBytes v = hexStrSpec v := by
  induction v with
  | nil => rfl
  | cons b rest ih =>
    have hb : b < 256 := hv b (List.mem_cons_self _ _)
    simp only [GetHexStringFromBytes, hexStrSpec]
    rw [ih (fun x hx => hv x (List.mem_cons_of_mem _ hx)), byteHex_eq b hb]
    rfl

/-- Witness for C10 on a vector exercising both signed-char regimes. -/
theorem GetHexStringFromBytes_eq_hexStrSpec_witness :
    GetHexStringFromBytes [0, 1, 127, 128, 171, 255] =
      hexStrSpec [0, 1, 127, 128, 171, 255] :=
  GetHexStringFromBytes_eq_hexStrSpec [0, 1, 127, 128, 171, 255] (by decide)

/-! ### Token Protocol: `Commit` (`createtoken`, lines 1036-1092, and its
internal duplicate `CreateToken`, lines 1095-1139)

`CHashWriter`, `CKey`, `CPubKey` and `CBitcoinSecret` are external
collaborators (`hash.h`, `key.h`, `base58.h`); they are abstracted into an
environment record.  The file's bytes arrive as the in-memory string the
C++ builds before hashing; the keyed hash, the fresh key's signing
function, its public-key hash and its private-key encoding are opaque. -/

/-- External collaborators of the token-commitment functions. `hashH k1 k2`
is `CHashWriter(k1, k2)` over the written bytes; `signK key digest` is
`key.Sign(digest, signature)`; `pubKeyHashHex key` is
`key.GetPubKey().GetHash().GetHex()`; `privKeyEncode key` is
`CBitcoinSecret(key).ToString()`. -/
structure TokenEnv where
  hashH : Nat → Nat → List Char → Nat
  signK : Nat → Nat → List Nat
  pubKeyHashHex : Nat → List Char
  privKeyEncode : Nat → List Char

/-- The result object of `createtoken` / `CreateToken`. -/
structure TokenObj where
  tokenId : List Char
  tokenPubKey : List Char
  tokenPrivKey : List Char
deriving DecidableEq, Repr

/-- The digest of `createtoken`: append the anchor transaction id to the
file string, then `CHashWriter hashWriter(1, 1)` and
`hashWriter.write(&filestring[0], 64)` — exactly the first 64 bytes of the
concatenation, under the fixed `(1, 1)` parameters. -/
def createtokenDigest (env : TokenEnv) (filestring previousTxId : List Char) :
    Nat :=
  env.hashH 1 1 (List.take 64 (filestring ++ previousTxId))

/-- The digest of the duplicated internal `CreateToken` (lines 1113-1117),
kept as its own definition because the source duplicates the code. -/
def CreateTokenDigest (env : TokenEnv) (filestring previousTxId : List Char) :
    Nat :=
  env.hashH 1 1 (List.take 64 (filestring ++ previousTxId))

/-- RPC `createtoken` after reading the file: hash, sign the digest with the
freshly generated key, and return the token id (hex of the signature), the
token public key (hash of the fresh public key) and the exportable private
key. -/
def createtokenCore (env : TokenEnv) (key : Nat)
    (filestring previousTxId : List Char) : TokenObj :=
  let hash := createtokenDigest env filestring previousTxId
  let signature := env.signK key hash
  { tokenId := GetHexStringFromBytes signature,
    tokenPubKey := env.pubKeyHashHex key,
    tokenPrivKey := env.privKeyEncode key }

/-- The duplicated internal `CreateToken` (lines 1095-1139). -/
def CreateTokenCore (env : TokenEnv) (key : Nat)
    (filestring previousTxId : List Char) : TokenObj :=
  let hash := CreateTokenDigest env filestring previousTxId
  let signature := env.signK key hash
  { tokenId := GetHexStringFromBytes signature,
    tokenPubKey := env.pubKeyHashHex key,
    tokenPrivKey := env.privKeyEncode key }

/-- Claim C1: the commitment digest is the keyed hash, at the fixed
`(1, 1)` parameters, of exactly the first 64 bytes of the concatenation of
the file content with the hex-encoded anchor transaction id — two
preimages agreeing on those 64 bytes give the same digest, `createtoken`
and `CreateToken` compute identical digests, and the digest does not
depend on the freshly generated keypair: every call's token id is the hex
encoding of a signature over that same key-independent digest, for any
fresh keys `k1`, `k2`. -/
theorem createtoken_digest_first64 (env : TokenEnv) (k1 k2 : Nat)
    (f t f2 t2 : List Char)
    (hlen : 64 ≤ (f ++ t).length)
    (h64 : List.take 64 (f ++ t) = List.take 64 (f2 ++ t2)) :
    createtokenDigest env f t = env.hashH 1 1 (List.take 64 (f ++ t))
    ∧ createtokenDigest env f t = CreateTokenDigest env f2 t2
    ∧ createtokenCore env k1 f t =
        { tokenId := GetHexStringFromBytes
            (env.signK k1 (createtokenDigest env f t)),
          tokenPubKey := env.pubKeyHashHex k1,
          tokenPrivKey := env.privKeyEncode k1 }
    ∧ createtokenCore env k1 f t = CreateTokenCore env k1 f t
    ∧ (createtokenCore env k1 f t).tokenId =
        GetHexStringFromBytes
          (env.signK k1 (createtokenDigest env f2 t2))
    ∧ (createtokenCore env k2 f t).tokenId =
        GetHexStringFromBytes
          (env.signK k2 (createtokenDigest env f t)) := by
  have hd : createtokenDigest env f t = CreateTokenDigest env f2 t2 := by
    unfold createtokenDigest CreateTokenDigest
    rw [h64]
  have hd2 : createtokenDigest env f t = createtokenDigest env f2 t2 := by
    unfold createtokenDigest
    rw [h64]
  refine ⟨rfl, hd, rfl, rfl, ?_, rfl⟩
  rw [← hd2]
  rfl

/-- A concrete token environment for the witness. -/
def demoTokenEnv : TokenEnv :=
  ⟨fun k1 k2 s => k1 + k2 + s.length, fun key d => [key, d],
   fun key => [Char.ofNat (48 + key)], fun key => [Char.ofNat (65 + key)]⟩

/-- Witness for C1: a 64-byte file against two different anchors with the
same first-64-byte window, and two different fresh keys. -/
theorem createtoken_digest_first64_witness :
    createtokenDigest demoTokenEnv (List.replicate 64 'x') ['a'] =
      demoTokenEnv.hashH 1 1
        (List.take 64 (List.replicate 64 'x' ++ ['a'])) ∧
    createtokenDigest demoTokenEnv (List.replicate 64 'x') ['a'] =
      CreateTokenDigest demoTokenEnv (List.replicate 64 'x') ['b'] ∧
    createtokenCore demoTokenEnv 1 (List.replicate 64 'x') ['a'] =
      { tokenId := GetHexStringFromBytes (demoTokenEnv.signK 1
          (createtokenDigest demoTokenEnv (List.replicate 64 'x') ['a'])),
        tokenPubKey := demoTokenEnv.pubKeyHashHex 1,
        tokenPrivKey := demoTokenEnv.privKeyEncode 1 } ∧
    createtokenCore demoTokenEnv 1 (List.replicate 64 'x') ['a'] =
      CreateTokenCore demoTokenEnv 1 (List.replicate 64 'x') ['a'] ∧
    (createtokenCore demoTokenEnv 1 (List.replicate 64 'x') ['a']).tokenId =
      GetHexStringFromBytes (demoTokenEnv.signK 1
        (createtokenDigest demoTokenEnv (List.replicate 64 'x') ['b'])) ∧
    (createtokenCore demoTokenEnv 2 (List.replicate 64 'x') ['a']).tokenId =
      GetHexStringFromBytes (demoTokenEnv.signK 2
        (createtokenDigest demoTokenEnv (List.replicate 64 'x') ['a'])) :=
  createtoken_digest_first64 demoTokenEnv 1 2
    (List.replicate 64 'x') ['a'] (List.replicate 64 'x') ['b']
    (by simp) (by simp [List.take_append_of_le_length])
